import Mathlib

/-!
# Verification of the hereiam indexing/retrieval pipeline

Shallow embedding of the chunking, metadata-store, vector-index and
search code of the hereiam repository (`src/main/fileSystem.js`,
`hereiam-main.js`, the preload bridge and the renderer's search entry),
together with proofs and refutations of the specification's claims.

JavaScript strings are modelled as `List Char` (lengths are character
counts, matching JS `.length` for the BMP texts at issue); SQLite tables
are modelled as insertion-ordered lists of rows (SQLite returns rows of
an un-`ORDER BY`ed scan in rowid = insertion order); the external Python
processes are modelled by their observable outcome (exit status and
decoded result payload).
-/

namespace HereIAm

/-- JS `\s` (whitespace class) restricted to the ASCII range; the
source splits on `/\n\s*\n/` and `/(?<=[.!?])\s+/`. -/
def isJsSpace (c : Char) : Bool :=
  c = ' ' || c = '\t' || c = '\n' || c = '\r' || c = '\x0b' || c = '\x0c'

/-- Index of the last `'\n'` in a list, if any.  Used to model the
greedy-then-backtrack behaviour of `\s*` followed by a final `\n`. -/
def lastNewlineIdx : List Char → Option Nat
  | [] => none
  | c :: cs =>
    match lastNewlineIdx cs with
    | some k => some (k + 1)
    | none => if c = '\n' then some 0 else none

/-- Attempt to match the separator regex `/\n\s*\n/` at the head of the
list.  On success returns the remainder after the match.  The match is
an initial `'\n'`, then the greedy `\s*` backtracks to the last `'\n'`
of the maximal whitespace run. -/
def paraSep : List Char → Option (List Char)
  | '\n' :: rest =>
    let run := rest.takeWhile isJsSpace
    match lastNewlineIdx run with
    | some k => some (rest.drop (k + 1))
    | none => none
  | _ => none

/-- `text.split(/\n\s*\n/)` from `chunkText` (fileSystem.js:354):
scan left to right for the leftmost separator match, cut, continue
after the match.  `acc` holds the current piece reversed; `fuel`
bounds the recursion (any `fuel ≥ l.length` yields the JS result,
since every step consumes at least one character). -/
def splitParasAux : Nat → List Char → List Char → List (List Char)
  | _, acc, [] => [acc.reverse]
  | 0, acc, l => [acc.reverse ++ l]
  | fuel + 1, acc, c :: cs =>
    match paraSep (c :: cs) with
    | some rem => acc.reverse :: splitParasAux fuel [] rem
    | none => splitParasAux fuel (c :: acc) cs

/-- `text.split(/\n\s*\n/)`. -/
def splitParagraphs (text : List Char) : List (List Char) :=
  splitParasAux text.length [] text

/-- `chunk.split(/(?<=[.!?])\s+/)` from `chunkText` (fileSystem.js:381):
a match is a maximal whitespace run whose first character is preceded by
sentence-ending punctuation.  The previous character is the head of the
reversed accumulator. -/
def splitSentsAux : Nat → List Char → List Char → List (List Char)
  | _, acc, [] => [acc.reverse]
  | 0, acc, l => [acc.reverse ++ l]
  | fuel + 1, acc, c :: cs =>
    if isJsSpace c &&
        (match acc.head? with
         | some p => p = '.' || p = '!' || p = '?'
         | none => false) then
      acc.reverse :: splitSentsAux fuel [] (cs.dropWhile isJsSpace)
    else
      splitSentsAux fuel (c :: acc) cs

/-- `chunk.split(/(?<=[.!?])\s+/)`. -/
def splitSentences (text : List Char) : List (List Char) :=
  splitSentsAux text.length [] text

/-- One iteration of the paragraph-accumulation loop of `chunkText`
(fileSystem.js:358-367).  State is `(chunks, currentChunk)`. -/
def paraStep (maxChunkSize : Nat) (st : List (List Char) × List Char)
    (paragraph : List Char) : List (List Char) × List Char :=
  if st.2.length + paragraph.length > maxChunkSize ∧ st.2.length > 0 then
    (st.1 ++ [st.2], paragraph)
  else
    (st.1, st.2 ++ (if st.2 = [] then [] else ['\n', '\n']) ++ paragraph)

/-- The first pass of `chunkText`: accumulate paragraphs, flush on
overflow, then push the trailing non-empty chunk (fileSystem.js:355-372). -/
def chunkTextPass1 (maxChunkSize : Nat) (paragraphs : List (List Char)) :
    List (List Char) :=
  let st := paragraphs.foldl (paraStep maxChunkSize) ([], [])
  st.1 ++ (if st.2 = [] then [] else [st.2])

/-- One iteration of the sentence-accumulation loop of `chunkText`
(fileSystem.js:384-391); the joiner is a single space. -/
def sentStep (maxChunkSize : Nat) (st : List (List Char) × List Char)
    (sentence : List Char) : List (List Char) × List Char :=
  if st.2.length + sentence.length > maxChunkSize ∧ st.2.length > 0 then
    (st.1 ++ [st.2], sentence)
  else
    (st.1, st.2 ++ (if st.2 = [] then [] else [' ']) ++ sentence)

/-- Splitting an oversized chunk by sentences (fileSystem.js:380-395). -/
def sentSplitChunk (maxChunkSize : Nat) (chunk : List Char) :
    List (List Char) :=
  let st := (splitSentences chunk).foldl (sentStep maxChunkSize) ([], [])
  st.1 ++ (if st.2 = [] then [] else [st.2])

/-- `chunkText(text, maxChunkSize)` (fileSystem.js:352-400): split on
blank lines, accumulate into bounded chunks, then split any chunk still
exceeding `maxChunkSize` by sentence boundaries. -/
def chunkText (text : List Char) (maxChunkSize : Nat) : List (List Char) :=
  (chunkTextPass1 maxChunkSize (splitParagraphs text)).flatMap fun c =>
    if c.length ≤ maxChunkSize then [c] else sentSplitChunk maxChunkSize c

example : splitParagraphs "a\n\nb".toList = ["a".toList, "b".toList] := by decide
example : splitParagraphs "a\n \nb".toList = ["a".toList, "b".toList] := by decide
example : splitParagraphs "".toList = [[]] := by decide
example : splitParagraphs "\n\n".toList = [[], []] := by decide
example : splitParagraphs "a\n\n\n\nb".toList = ["a".toList, "b".toList] := by decide
example : splitParagraphs "a\nb".toList = ["a\nb".toList] := by decide
example : splitSentences "a. b! c".toList = ["a.".toList, "b!".toList, "c".toList] := by
  decide
example : splitSentences "a. ".toList = ["a.".toList, []] := by decide
example : chunkText "a\n\nb".toList 1000 = ["a\n\nb".toList] := by decide
example : chunkText "a\n\nb".toList 1 = ["a".toList, "b".toList] := by decide
example : chunkText "".toList 1000 = [] := by decide
example : chunkText "\n \n".toList 7 = [] := by decide
example : chunkText "aa\n\nbb".toList 3 = ["aa".toList, "bb".toList] := by decide
example : chunkText "one. two. three.".toList 6
    = ["one.".toList, "two.".toList, "three.".toList] := by decide

/-! ## Chunk records and `extractTextChunks` -/

/-- A chunk as produced by `extractTextChunks` (fileSystem.js:409-443). -/
structure TChunk where
  text : List Char
  filePath : String
  startPos : Nat
  granularity : String
  deriving DecidableEq, Repr

/-- The offset-assignment loop of `extractTextChunks`
(fileSystem.js:425-438): `startPos` starts at 0 and advances by the
length of each emitted chunk's text. -/
def attachOffsets (filePath : String) (granularity : String) :
    Nat → List (List Char) → List TChunk
  | _, [] => []
  | pos, t :: ts =>
    ⟨t, filePath, pos, granularity⟩ :: attachOffsets filePath granularity (pos + t.length) ts

/-- `extractTextChunks(filePath, chunkSize, granularity)`
(fileSystem.js:409-443), with the file's content passed explicitly in
place of the `readTextFile` call.  `granularity = "document"` returns
the whole content as one chunk at offset 0; any other granularity goes
through `chunkText` with cumulative offsets. -/
def extractTextChunks (content : List Char) (filePath : String)
    (chunkSize : Nat) (granularity : String) : List TChunk :=
  if granularity = "document" then
    [⟨content, filePath, 0, "document"⟩]
  else
    attachOffsets filePath granularity 0 (chunkText content chunkSize)

/-- A chunk carrying its embedding, as assembled by the scan-directory
handler (`generateEmbeddings` output).  Embedding vectors are modelled
with integer components: every claim at issue is independent of the
numeric field. -/
structure EChunk where
  text : List Char
  filePath : String
  startPos : Nat
  granularity : String
  embedding : List Int
  deriving DecidableEq, Repr

/-! ## Metadata store (SQLite) -/

/-- A row of the `chunks` table.  `documentId` is the position of the
owning document in the `documents` table.  The AUTOINCREMENT `id`
column is omitted: no claim refers to it and it is only echoed back to
the caller.  The list of rows is kept in rowid (insertion) order. -/
structure Row where
  documentId : Nat
  text : List Char
  startPos : Nat
  granularity : String
  embeddingId : Nat
  deriving DecidableEq, Repr

/-- The database: the `documents` table (a document's id is its
position; its `path` is the stored value) and the `chunks` table in
insertion order. -/
structure DB where
  documents : List String
  chunks : List Row
  deriving DecidableEq, Repr

/-- `getOrCreateDocument` (fileSystem.js:87-122): look the path up,
insert a fresh row if absent; returns the updated table and the id. -/
def getOrCreateDocument (docs : List String) (filePath : String) :
    List String × Nat :=
  if filePath ∈ docs then (docs, docs.indexOf filePath)
  else (docs ++ [filePath], docs.length)

/-- JS object keys are iterated in insertion order, i.e. the order of
first occurrence of each `filePath` in the chunk list
(`chunksByFile`, fileSystem.js:131-137). -/
def keysInOrder (paths : List String) : List String :=
  paths.foldl (fun acc p => if p ∈ acc then acc else acc ++ [p]) []

/-- `storeChunks(chunks)` (fileSystem.js:129-185): group chunks by file
path (insertion order of keys), and per file: upsert the document row,
`DELETE FROM chunks WHERE document_id = ?`, then insert that file's
chunks in order with `embedding_id = i`, the chunk's index *within the
file* (fileSystem.js:160).  Returns the updated database; the enriched
chunk list the JS function also returns is only used for a count log by
its caller. -/
def storeChunks (db : DB) (chunks : List EChunk) : DB :=
  (keysInOrder (chunks.map (·.filePath))).foldl
    (fun db p =>
      let (docs, docId) := getOrCreateDocument db.documents p
      let fileChunks := chunks.filter (·.filePath = p)
      let kept := db.chunks.filter (·.documentId ≠ docId)
      let inserted := fileChunks.enum.map fun ic =>
        Row.mk docId ic.2.text ic.2.startPos ic.2.granularity ic.1
      ⟨docs, kept ++ inserted⟩)
    db

/-- A chunk as returned to callers of the store queries: the row joined
with its document's path (fileSystem.js:199-215). -/
structure ChunkOut where
  text : List Char
  filePath : String
  startPos : Nat
  granularity : String
  embeddingId : Nat
  deriving DecidableEq, Repr

/-- The `JOIN documents d ON c.document_id = d.id` step: a row whose
document id has no matching document produces no output row. -/
def joinDoc (db : DB) (r : Row) : Option ChunkOut :=
  (db.documents.get? r.documentId).map fun p =>
    ⟨r.text, p, r.startPos, r.granularity, r.embeddingId⟩

/-- `getChunksByEmbeddingIds(embeddingIds)` (fileSystem.js:192-227):
empty input short-circuits to `[]`; otherwise select the rows whose
`embedding_id` is in the list (scan order), join with documents, and
stable-sort by `embeddingIds.indexOf(embeddingId)` — JS `Array.sort`
is stable, modelled by `List.insertionSort`. -/
def getChunksByEmbeddingIds (db : DB) (embeddingIds : List Nat) :
    List ChunkOut :=
  if embeddingIds = [] then []
  else
    List.insertionSort
      (fun a b => embeddingIds.indexOf a.embeddingId ≤ embeddingIds.indexOf b.embeddingId)
      ((db.chunks.filter (·.embeddingId ∈ embeddingIds)).filterMap (joinDoc db))

/-- The spec's reading of `getChunksByHandles` (§4.3): the results for
each handle, in the order the handles were given, duplicates included;
a handle with no matching rows contributes nothing.  Stated from the
spec's words, to be compared with `getChunksByEmbeddingIds`. -/
def getChunksByHandlesSpec (db : DB) (embeddingIds : List Nat) :
    List ChunkOut :=
  embeddingIds.flatMap fun h =>
    (db.chunks.filter (·.embeddingId = h)).filterMap (joinDoc db)

/-! ## Embedding provider -/

/-- Failure modes of `generateEmbeddings` (fileSystem.js:451-529). -/
inductive ProviderError where
  | spawnFailure : ProviderError
  | nonzeroExit (code : Nat) : ProviderError
  deriving DecidableEq, Repr

/-- Observable outcome of the spawned Python embedding process:
the spawn itself can fail, or the process exits with a code, having
written the given vectors to the result file when the code is 0. -/
inductive PyRun where
  | spawnFailure : PyRun
  | exited (code : Nat) (vectors : List (List Int)) : PyRun

/-- A chunk after the embedding step.  `generateEmbeddings` writes
`embedding: embeddings[i]`, which is `undefined` (here `none`) when the
process returned fewer vectors than there are chunks. -/
structure EmbChunk where
  chunk : TChunk
  embedding : Option (List Int)
  deriving DecidableEq, Repr

/-- `generateEmbeddings(chunks)` (fileSystem.js:451-529) as a function
of the process outcome: rejected on spawn failure or nonzero exit;
on exit 0 each chunk is paired with the vector at its position —
without any check that the vector count matches the chunk count. -/
def generateEmbeddings (chunks : List TChunk) (run : PyRun) :
    Except ProviderError (List EmbChunk) :=
  match run with
  | .spawnFailure => .error .spawnFailure
  | .exited code vectors =>
    if code = 0 then
      .ok (chunks.enum.map fun ic => ⟨ic.2, vectors.get? ic.1⟩)
    else
      .error (.nonzeroExit code)

/-! ## Vector index -/

/-- Integer inner product of two vectors. -/
def dotIP (u v : List Int) : Int :=
  (List.zipWith (· * ·) u v).sum

/-- Modelled from the spec: the behaviour of `faiss.IndexFlatIP.search`
invoked by the generated `search_faiss_index.py`
(fileSystem.js:561-594).  The faiss library itself is not part of the
repository; per the spec (§4.4) a flat index performs exact search,
returning the `k` best (row, inner-product score) pairs in
non-increasing score order, `k = min(requestedK, ntotal)` as computed
by the generated script (fileSystem.js:585). -/
def faissFlatIPSearch (index : List (List Int)) (query : List Int)
    (requestedK : Nat) : List (Nat × Int) :=
  (List.insertionSort (fun a b => b.2 ≤ a.2)
      (index.enum.map fun iv => (iv.1, dotIP query iv.2))).take
    (min requestedK index.length)

/-- `createFaissIndex(chunks)` (fileSystem.js:669-746): store the
chunks in the database (a store failure is logged and ignored — the
successful store is modelled), then build the flat index over the
chunks' embeddings in the order given.  Returns the updated database
and the index contents (row `i` holds the `i`-th chunk's embedding). -/
def createFaissIndex (db : DB) (chunks : List EChunk) :
    DB × List (List Int) :=
  (storeChunks db chunks, chunks.map (·.embedding))

example :
    faissFlatIPSearch [[1, 0], [0, 1], [1, 1]] [2, 3] 2 = [(2, 5), (1, 3)] := by
  decide
example : faissFlatIPSearch [[1, 0], [0, 1]] [2, 3] 10 = [(1, 3), (0, 2)] := by
  decide

example :
    let cA : EChunk := ⟨"a".toList, "A", 0, "paragraph", [1, 0]⟩
    let cB : EChunk := ⟨"b".toList, "B", 0, "paragraph", [0, 1]⟩
    createFaissIndex ⟨[], []⟩ [cA, cB]
      = (⟨["A", "B"], [⟨0, "a".toList, 0, "paragraph", 0⟩, ⟨1, "b".toList, 0, "paragraph", 0⟩]⟩,
         [[1, 0], [0, 1]]) := by
  decide

/-! ## Main-process application state and IPC handlers -/

/-- Process-wide state touched by the main-process handlers
(hereiam-main.js): the in-memory chunk cache `indexedChunks`, the
JSON cache file `index-data.json` (`none` = absent), the SQLite
database, and the persisted FAISS index file (`none` = absent, `some
vectors` = the vectors it holds in row order). -/
structure AppState where
  indexedChunks : List EChunk
  savedIndexData : Option (List EChunk)
  db : DB
  faissIndex : Option (List (List Int))
  deriving DecidableEq, Repr

/-- One file of a scan, as (path, content). -/
abbrev ScanFile := String × List Char

/-- Chunk one file with the handler's defaults (`extractTextChunks(filePath)`,
hereiam-main.js:482: `chunkSize = 1000`, `granularity = 'paragraph'`)
and attach embeddings.  The embedding step is modelled in its
successful case, one vector per text in order (`generateEmbeddings`
models the failure cases separately). -/
def processFile (embed : List Char → List Int) (f : ScanFile) : List EChunk :=
  (extractTextChunks f.2 f.1 1000 "paragraph").map fun c =>
    ⟨c.text, c.filePath, c.startPos, c.granularity, embed c.text⟩

/-- The batch loop of the scan-directory handler
(hereiam-main.js:474-509): files are processed five at a time, each
batch's chunks are embedded together and appended to the running list. -/
def processBatches (embed : List Char → List Int) :
    List ScanFile → List EChunk
  | [] => []
  | f1 :: f2 :: f3 :: f4 :: f5 :: rest =>
    ([f1, f2, f3, f4, f5].flatMap (processFile embed)) ++ processBatches embed rest
  | files => files.flatMap (processFile embed)

/-- The `scan-directory` IPC handler (hereiam-main.js:442-524), state
effects only: clear `indexedChunks`, rebuild it batch by batch, and
save it to the JSON cache file (`saveIndexedChunks`).  The handler
never touches the SQLite store or the FAISS index file. -/
def runScanDirectory (embed : List Char → List Int) (s : AppState)
    (files : List ScanFile) : AppState :=
  let newChunks := processBatches embed files
  { indexedChunks := newChunks
    savedIndexData := some newChunks
    db := s.db
    faissIndex := s.faissIndex }

/-- State effect of `createFaissIndex` inside the running app: the
database gains the stored chunks and the index file now holds the
chunks' embeddings in order (fileSystem.js:669-746). -/
def createFaissIndexState (s : AppState) (chunks : List EChunk) : AppState :=
  { s with db := storeChunks s.db chunks
           faissIndex := some (chunks.map (·.embedding)) }

/-- The lazy-build step at the top of `searchChunks`
(fileSystem.js:550-553): if no index file exists, build one from the
chunks the handler passed in (the in-memory `indexedChunks`). -/
def ensureFaissIndex (s : AppState) : AppState :=
  match s.faissIndex with
  | none => createFaissIndexState s s.indexedChunks
  | some _ => s

/-- Observable outcome of the `search` IPC handler
(hereiam-main.js:538-557). -/
inductive SearchOutcome where
  | errorNoDocs : SearchOutcome
  | invokeSearch (query : List Char) (chunks : List EChunk) : SearchOutcome
  deriving DecidableEq, Repr

/-- The `search` IPC handler (hereiam-main.js:538-557): its only guard
is `indexedChunks.length === 0`; otherwise it calls
`searchChunks(query, indexedChunks)` with whatever query it received —
it performs no validation of the query text. -/
def searchHandler (indexedChunks : List EChunk) (query : List Char) :
    SearchOutcome :=
  if indexedChunks.length = 0 then .errorNoDocs
  else .invokeSearch query indexedChunks

/-- Granularity-level toggles as sent from the renderer (an object of
booleans, modelled as an association list). -/
abbrev GranLevels := List (String × Bool)

/-- The full IPC path of a search: the preload bridge sends
`(query, granularityLevels)` (`preload.js`, `search:` line), and the
handler binds only `(event, query)` (hereiam-main.js:538) — the
granularity argument is never read. -/
def searchIpc (indexedChunks : List EChunk) (query : List Char)
    (_granularityLevels : GranLevels) : SearchOutcome :=
  searchHandler indexedChunks query

/-- JS `String.prototype.trim`: strip whitespace from both ends. -/
def jsTrim (s : List Char) : List Char :=
  ((s.dropWhile isJsSpace).reverse.dropWhile isJsSpace).reverse

/-- The renderer's search entry (App.jsx:513-520): a query that is
empty after `trim()` aborts before any IPC call (`none`); otherwise
the raw query is sent over IPC (`some query`). -/
def rendererHandleSearch (query : List Char) : Option (List Char) :=
  if jsTrim query = [] then none else some query

example :
    runScanDirectory (fun _ => [1]) ⟨[], none, ⟨[], []⟩, none⟩ [("A", "hello".toList)]
      = ⟨[⟨"hello".toList, "A", 0, "paragraph", [1]⟩],
         some [⟨"hello".toList, "A", 0, "paragraph", [1]⟩],
         ⟨[], []⟩, none⟩ := by decide

example :
    generateEmbeddings [⟨"a".toList, "A", 0, "paragraph"⟩] (.exited 0 [])
      = .ok [⟨⟨"a".toList, "A", 0, "paragraph"⟩, none⟩] := rfl

example : rendererHandleSearch "  ".toList = none := by decide
example : searchHandler [⟨"a".toList, "A", 0, "paragraph", [1]⟩] []
    = .invokeSearch [] [⟨"a".toList, "A", 0, "paragraph", [1]⟩] := by decide

/-- Rejoining the pieces of `splitParagraphs` with the canonical
separator `"\n\n"`; a text in which every separator occurrence is exactly
`"\n\n"` satisfies `joinParagraphs (splitParagraphs text) = text`. -/
def joinParagraphs : List (List Char) → List Char
  | [] => []
  | p :: ps => p ++ (ps.map (fun q => '\n' :: '\n' :: q)).flatten

/-- `joinParagraphs` written with an explicit head: the running-buffer
shape during the paragraph fold. -/
def joinWith (cur : List Char) (ps : List (List Char)) : List Char :=
  cur ++ (ps.map (fun q => '\n' :: '\n' :: q)).flatten

/-! ## Helper lemmas -/

/-- The paragraph-accumulation fold only ever appends the (guarded
non-empty) current chunk to the flushed-chunk list. -/
lemma paraFold_flushed_ne_nil (maxChunkSize : Nat) :
    ∀ (ps : List (List Char)) (st : List (List Char) × List Char),
      (∀ c ∈ st.1, c ≠ []) →
      ∀ c ∈ (ps.foldl (paraStep maxChunkSize) st).1, c ≠ [] := by
  intro ps
  induction ps with
  | nil => intro st h; simpa using h
  | cons p ps ih =>
    intro st h
    simp only [List.foldl_cons]
    apply ih
    unfold paraStep
    split
    · rename_i hcond
      intro c hc
      rcases List.mem_append.1 hc with hc | hc
      · exact h c hc
      · simp only [List.mem_singleton] at hc
        subst hc
        intro hnil
        rw [hnil] at hcond
        simpa using hcond.2
    · exact h

/-- Every chunk emitted by the first pass of `chunkText` is non-empty:
flushes are guarded by `currentChunk.length > 0` and the final push by
`if (currentChunk)`. -/
lemma chunkTextPass1_ne_nil (maxChunkSize : Nat) (ps : List (List Char)) :
    ∀ c ∈ chunkTextPass1 maxChunkSize ps, c ≠ [] := by
  intro c hc
  unfold chunkTextPass1 at hc
  rcases List.mem_append.1 hc with hc | hc
  · exact paraFold_flushed_ne_nil maxChunkSize ps ([], []) (by simp) c hc
  · split at hc
    · simp at hc
    · rename_i hne
      simp only [List.mem_singleton] at hc
      subst hc; exact hne

/-- Same invariant for the sentence-accumulation fold. -/
lemma sentFold_flushed_ne_nil (maxChunkSize : Nat) :
    ∀ (ss : List (List Char)) (st : List (List Char) × List Char),
      (∀ c ∈ st.1, c ≠ []) →
      ∀ c ∈ (ss.foldl (sentStep maxChunkSize) st).1, c ≠ [] := by
  intro ss
  induction ss with
  | nil => intro st h; simpa using h
  | cons s ss ih =>
    intro st h
    simp only [List.foldl_cons]
    apply ih
    unfold sentStep
    split
    · rename_i hcond
      intro c hc
      rcases List.mem_append.1 hc with hc | hc
      · exact h c hc
      · simp only [List.mem_singleton] at hc
        subst hc
        intro hnil
        rw [hnil] at hcond
        simpa using hcond.2
    · exact h

/-- Every chunk produced by sentence-splitting an oversized chunk is
non-empty. -/
lemma sentSplitChunk_ne_nil (maxChunkSize : Nat) (chunk : List Char) :
    ∀ c ∈ sentSplitChunk maxChunkSize chunk, c ≠ [] := by
  intro c hc
  unfold sentSplitChunk at hc
  rcases List.mem_append.1 hc with hc | hc
  · exact sentFold_flushed_ne_nil maxChunkSize _ ([], []) (by simp) c hc
  · split at hc
    · simp at hc
    · rename_i hne
      simp only [List.mem_singleton] at hc
      subst hc; exact hne

/-- Every chunk returned by `chunkText` is non-empty. -/
lemma chunkText_ne_nil (text : List Char) (maxChunkSize : Nat) :
    ∀ c ∈ chunkText text maxChunkSize, c ≠ [] := by
  intro c hc
  unfold chunkText at hc
  rcases List.mem_flatMap.1 hc with ⟨d, hd, hc⟩
  by_cases hle : d.length ≤ maxChunkSize
  · rw [if_pos hle] at hc
    simp only [List.mem_singleton] at hc
    subst hc
    exact chunkTextPass1_ne_nil maxChunkSize _ c hd
  · rw [if_neg hle] at hc
    exact sentSplitChunk_ne_nil maxChunkSize d c hc

lemma attachOffsets_length (fp g : String) :
    ∀ (pos : Nat) (ts : List (List Char)),
      (attachOffsets fp g pos ts).length = ts.length := by
  intro pos ts
  induction ts generalizing pos with
  | nil => rfl
  | cons t ts ih => simp [attachOffsets, ih]

/-- Positional characterization of `attachOffsets`: the `i`-th emitted
chunk carries the `i`-th text and the offset `pos` plus the total
length of the preceding texts. -/
lemma attachOffsets_get? (fp g : String) :
    ∀ (ts : List (List Char)) (pos i : Nat),
      (attachOffsets fp g pos ts).get? i
        = (ts.get? i).map fun t =>
            TChunk.mk t fp (pos + ((ts.take i).map List.length).sum) g := by
  intro ts
  induction ts with
  | nil => intro pos i; simp [attachOffsets]
  | cons t ts ih =>
    intro pos i
    cases i with
    | zero => simp [attachOffsets]
    | succ j =>
      simp only [attachOffsets, List.get?_cons_succ, ih (pos + t.length) j,
        List.take_succ_cons, List.map_cons, List.sum_cons]
      cases ts.get? j <;> simp [Nat.add_assoc]

/-- The texts of the chunks produced by `attachOffsets` are the input
texts. -/
lemma attachOffsets_map_text (fp g : String) :
    ∀ (pos : Nat) (ts : List (List Char)),
      (attachOffsets fp g pos ts).map (fun c => c.text) = ts := by
  intro pos ts
  induction ts generalizing pos with
  | nil => rfl
  | cons t ts ih => simp [attachOffsets, ih]

/-- As long as the accumulated text never exceeds `maxChunkSize`, the
paragraph fold never flushes: it just joins everything with `"\n\n"`. -/
lemma paraFold_no_overflow (maxChunkSize : Nat) :
    ∀ (ps : List (List Char)) (chunks : List (List Char)) (cur : List Char),
      cur ≠ [] →
      (joinWith cur ps).length ≤ maxChunkSize →
      ps.foldl (paraStep maxChunkSize) (chunks, cur) = (chunks, joinWith cur ps) := by
  intro ps
  induction ps with
  | nil => intro chunks cur _ _; simp [joinWith]
  | cons p ps ih =>
    intro chunks cur hcur hlen
    have hstep : paraStep maxChunkSize (chunks, cur) p
        = (chunks, cur ++ ['\n', '\n'] ++ p) := by
      have hbound : ¬ cur.length + p.length > maxChunkSize := by
        have : cur.length + p.length ≤ (joinWith cur (p :: ps)).length := by
          simp [joinWith]
          omega
        omega
      unfold paraStep
      rw [if_neg (by simp [hbound]), if_neg hcur]
    have hjoin : joinWith (cur ++ ['\n', '\n'] ++ p) ps = joinWith cur (p :: ps) := by
      simp [joinWith]
    simp only [List.foldl_cons, hstep]
    rw [ih chunks (cur ++ ['\n', '\n'] ++ p) (by simp) (by rw [hjoin]; exact hlen), hjoin]

section StableSort

variable {α : Type} (key : α → Nat)

/-- Inserting an element whose key is at most every key in the list
puts it in front. -/
lemma orderedInsert_front {a : α} {L : List α}
    (h : ∀ c ∈ L, key a ≤ key c) :
    List.orderedInsert (fun x y => key x ≤ key y) a L = a :: L := by
  cases L with
  | nil => rfl
  | cons b t =>
    simp only [List.orderedInsert]
    rw [if_pos (h b (List.mem_cons_self b t))]

/-- Inserting an element whose key is strictly greater than every key
of a front segment skips past that segment. -/
lemma orderedInsert_skip {a : α} {L₁ L₂ : List α}
    (h : ∀ c ∈ L₁, ¬ key a ≤ key c) :
    List.orderedInsert (fun x y => key x ≤ key y) a (L₁ ++ L₂)
      = L₁ ++ List.orderedInsert (fun x y => key x ≤ key y) a L₂ := by
  induction L₁ with
  | nil => rfl
  | cons b t ih =>
    simp only [List.cons_append, List.orderedInsert, List.append_eq]
    rw [if_neg (h b (List.mem_cons_self b t)),
      ih fun c hc => h c (List.mem_cons_of_mem b hc)]

/-- A stable sort of a list whose keys are all `≥ m` keeps the key-`m`
elements first, in their original order, followed by the sort of the
rest. -/
lemma insertionSort_min_split (m : Nat) :
    ∀ (l : List α), (∀ c ∈ l, m ≤ key c) →
      List.insertionSort (fun x y => key x ≤ key y) l
        = l.filter (fun c => key c = m)
          ++ List.insertionSort (fun x y => key x ≤ key y)
              (l.filter (fun c => key c ≠ m)) := by
  intro l
  induction l with
  | nil => simp
  | cons a t ih =>
    intro hmin
    have hmt : ∀ c ∈ t, m ≤ key c := fun c hc => hmin c (List.mem_cons_of_mem a hc)
    have hperm := List.perm_insertionSort (fun x y : α => key x ≤ key y)
      (t.filter (fun c => key c ≠ m))
    by_cases ha : key a = m
    · have hfront : ∀ c ∈ t.filter (fun c => key c = m)
          ++ List.insertionSort (fun x y => key x ≤ key y)
              (t.filter (fun c => key c ≠ m)), key a ≤ key c := by
        intro c hc
        rw [ha]
        rcases List.mem_append.1 hc with hc | hc
        · exact hmt c (List.mem_of_mem_filter hc)
        · exact hmt c (List.mem_of_mem_filter (hperm.mem_iff.1 hc))
      simp only [List.insertionSort]
      rw [ih hmt, orderedInsert_front key hfront,
        List.filter_cons_of_pos (by simpa using ha),
        List.filter_cons_of_neg (by simpa using ha), List.cons_append]
    · have hskip : ∀ c ∈ t.filter (fun c => key c = m), ¬ key a ≤ key c := by
        intro c hc
        have hc' : key c = m := by simpa using List.of_mem_filter hc
        have : m < key a := lt_of_le_of_ne (hmin a (List.mem_cons_self a t))
          (fun h => ha h.symm)
        omega
      simp only [List.insertionSort]
      rw [ih hmt, orderedInsert_skip key hskip,
        List.filter_cons_of_neg (by simpa using ha),
        List.filter_cons_of_pos (by simpa using ha)]
      rfl

/-- `indexOf` over an append, for an element absent from the front
part. -/
lemma indexOf_append_right {x : Nat} :
    ∀ (pre post : List Nat), x ∉ pre →
      (pre ++ post).indexOf x = pre.length + post.indexOf x := by
  intro pre post hx
  induction pre with
  | nil => simp
  | cons p ps ih =>
    have hxp : x ≠ p := fun h => hx (h ▸ List.mem_cons_self p ps)
    simp only [List.cons_append, List.length_cons]
    rw [List.indexOf_cons_ne _ (by simpa using fun h => hxp h.symm),
      ih (fun h => hx (List.mem_cons_of_mem p h))]
    omega

/-- Stable sort by first position in a duplicate-free handle list,
applied to the elements whose handle occurs in the list, groups the
elements handle by handle in the order the handles are given
(elements sharing a handle stay in their original order). -/
lemma insertionSort_indexOf_flatMap (eid : α → Nat) (full : List Nat)
    (hnodup : full.Nodup) :
    ∀ (hnd pre : List Nat) (l : List α), full = pre ++ hnd →
      List.insertionSort
        (fun a b => full.indexOf (eid a) ≤ full.indexOf (eid b))
        (l.filter (fun a => eid a ∈ hnd))
      = hnd.flatMap (fun h => l.filter (fun a => eid a = h)) := by
  intro hnd
  induction hnd with
  | nil => intro pre l _; simp
  | cons h hs ih =>
    intro pre l hfull
    have hpre : h ∉ pre := by
      subst hfull
      have := List.disjoint_of_nodup_append hnodup
      exact fun hmem => this hmem (List.mem_cons_self h hs)
    have hcons : (h :: hs).Nodup := by
      subst hfull
      exact (List.nodup_append.1 hnodup).2.1
    have hnhs : h ∉ hs := by
      intro hmem
      exact (List.nodup_cons.1 hcons).1 hmem
    -- key value of an element whose handle is in `h :: hs`
    have hkey : ∀ x ∈ (h :: hs), full.indexOf x = pre.length + (h :: hs).indexOf x := by
      intro x hx
      subst hfull
      have hxpre : x ∉ pre := by
        have := List.disjoint_of_nodup_append hnodup
        exact fun hmem => this hmem hx
      exact indexOf_append_right pre (h :: hs) hxpre
    have hmin : ∀ c ∈ l.filter (fun a => eid a ∈ h :: hs),
        pre.length ≤ full.indexOf (eid c) := by
      intro c hc
      have hcin : eid c ∈ h :: hs := by simpa using List.of_mem_filter hc
      rw [hkey _ hcin]
      omega
    rw [insertionSort_min_split (fun a => full.indexOf (eid a)) pre.length _ hmin]
    have hkeyh : full.indexOf h = pre.length := by
      rw [hkey h (List.mem_cons_self h hs)]
      simp [List.indexOf_cons_self]
    have hkeyhs : ∀ x ∈ hs, full.indexOf x ≠ pre.length := by
      intro x hx
      have hxh : x ≠ h := fun hh => hnhs (hh ▸ hx)
      rw [hkey x (List.mem_cons_of_mem h hx),
        List.indexOf_cons_ne _ (by simpa using fun hh => hxh hh.symm)]
      omega
    have hfiltZ : (l.filter (fun a => eid a ∈ h :: hs)).filter
        (fun c => full.indexOf (eid c) = pre.length) = l.filter (fun a => eid a = h) := by
      rw [List.filter_filter]
      apply List.filter_congr
      intro c _
      by_cases hch : eid c = h
      · simp [hch, hkeyh]
      · by_cases hmem : eid c ∈ h :: hs
        · have hmhs : eid c ∈ hs := by
            rcases List.mem_cons.1 hmem with hh | hh
            · exact absurd hh hch
            · exact hh
          simp [hch, hmem, hkeyhs _ hmhs]
        · simp [hch, hmem]
    have hfiltR : (l.filter (fun a => eid a ∈ h :: hs)).filter
        (fun c => full.indexOf (eid c) ≠ pre.length) = l.filter (fun a => eid a ∈ hs) := by
      rw [List.filter_filter]
      apply List.filter_congr
      intro c _
      by_cases hch : eid c = h
      · simp [hch, hkeyh, hnhs]
      · by_cases hmhs : eid c ∈ hs
        · simp [hch, hmhs, List.mem_cons_of_mem h hmhs, hkeyhs _ hmhs]
        · have hmem : eid c ∉ h :: hs := by
            intro hmem
            rcases List.mem_cons.1 hmem with hh | hh
            · exact hch hh
            · exact hmhs hh
          simp [hmem, hmhs]
    rw [hfiltZ, hfiltR, ih (pre ++ [h]) l (by rw [hfull]; simp)]
    simp

end StableSort

/-- With every paragraph empty, the accumulation loop never grows the
current chunk and never flushes. -/
lemma paraFold_all_empty (maxChunkSize : Nat) :
    ∀ (ps : List (List Char)), (∀ p ∈ ps, p = []) →
      ps.foldl (paraStep maxChunkSize) ([], []) = ([], []) := by
  intro ps
  induction ps with
  | nil => intro _; rfl
  | cons p t ih =>
    intro h
    have hp : p = [] := h p (List.mem_cons_self p t)
    subst hp
    simp only [List.foldl_cons]
    have hstep : paraStep maxChunkSize ([], []) [] = ([], []) := by
      simp [paraStep]
    rw [hstep]
    exact ih fun q hq => h q (List.mem_cons_of_mem _ hq)

/-- The document join only copies the `embedding_id` column, so
filtering on `embedding_id` commutes with the join. -/
lemma filterMap_joinDoc_filter (db : DB) (p : Nat → Bool) (rows : List Row) :
    (rows.filter (fun r => p r.embeddingId)).filterMap (joinDoc db)
      = (rows.filterMap (joinDoc db)).filter (fun o => p o.embeddingId) := by
  induction rows with
  | nil => rfl
  | cons r t ih =>
    have hcase : ∀ o, joinDoc db r = some o → o.embeddingId = r.embeddingId := by
      intro o ho
      unfold joinDoc at ho
      rcases Option.map_eq_some'.1 ho with ⟨pth, _, hpo⟩
      rw [← hpo]
    by_cases hp : p r.embeddingId = true
    · rw [List.filter_cons_of_pos (by exact hp)]
      simp only [List.filterMap_cons]
      cases hj : joinDoc db r with
      | none => simpa using ih
      | some o =>
        rw [List.filter_cons_of_pos (by rw [hcase o hj]; exact hp), ih]
    · rw [List.filter_cons_of_neg (by exact hp)]
      simp only [List.filterMap_cons]
      cases hj : joinDoc db r with
      | none => exact ih
      | some o =>
        rw [List.filter_cons_of_neg (by rw [hcase o hj]; exact hp), ih]

/-- `flatMap` respects pointwise equality of the mapped function. -/
lemma flatMap_congr_fun {γ δ : Type} (l : List γ) (f g : γ → List δ)
    (h : ∀ x, f x = g x) : l.flatMap f = l.flatMap g := by
  induction l with
  | nil => rfl
  | cons a t ih => simp only [List.flatMap_cons, h a, ih]

/-- Positions in `List.enum` are below the list's length. -/
lemma enum_fst_lt {β : Type} (l : List β) (p : Nat × β) (hp : p ∈ l.enum) :
    p.1 < l.length := by
  rw [List.enum_eq_zip_range] at hp
  have := (List.of_mem_zip (a := p.1) (b := p.2) (by simpa using hp)).1
  simpa using this

/-! ## The claims -/

/-- C9: the `search` IPC handler binds only `(event, query)`; the
`granularityLevels` value the preload bridge sends as a further
argument is never read, so the outcome is identical for any two
granularity settings. -/
theorem searchIpc_granularity_independent
    (indexedChunks : List EChunk) (query : List Char) (g g' : GranLevels) :
    searchIpc indexedChunks query g = searchIpc indexedChunks query g' := rfl

/-- C1 fails on the code: `storeChunks` restarts `embedding_id` at 0
for every file (fileSystem.js:158-160), while `createFaissIndex`
numbers rows globally over the whole ordered chunk list.  With chunks
from two files, FAISS row 1 holds the second chunk's embedding, yet no
stored row has `embedding_id = 1` — `getChunksByEmbeddingIds([1])` is
empty and `getChunksByEmbeddingIds([0])` returns both chunks,
contradicting the code's own comment "This will match the position in
the FAISS index" (fileSystem.js:160). -/
theorem storeChunks_misaligns_multifile_handles :
    (createFaissIndex ⟨[], []⟩
        [⟨"a".toList, "A", 0, "paragraph", [1, 0]⟩,
         ⟨"b".toList, "B", 0, "paragraph", [0, 1]⟩]).2
      = [[1, 0], [0, 1]] ∧
    getChunksByEmbeddingIds
        (createFaissIndex ⟨[], []⟩
          [⟨"a".toList, "A", 0, "paragraph", [1, 0]⟩,
           ⟨"b".toList, "B", 0, "paragraph", [0, 1]⟩]).1 [1]
      = [] ∧
    getChunksByEmbeddingIds
        (createFaissIndex ⟨[], []⟩
          [⟨"a".toList, "A", 0, "paragraph", [1, 0]⟩,
           ⟨"b".toList, "B", 0, "paragraph", [0, 1]⟩]).1 [0]
      = [⟨"a".toList, "A", 0, "paragraph", 0⟩, ⟨"b".toList, "B", 0, "paragraph", 0⟩] := by
  decide

/-- C2 fails on the code: completing a scan-directory run only saves
the chunks to the in-memory list and the JSON cache file; with an
absent FAISS index and an empty store, both are still absent and empty
after the run even though chunks were indexed. -/
theorem scanDirectory_no_persistence_counterexample :
    (runScanDirectory (fun _ => [1]) ⟨[], none, ⟨[], []⟩, none⟩
        [("A", "hello".toList)]).indexedChunks ≠ [] ∧
    (runScanDirectory (fun _ => [1]) ⟨[], none, ⟨[], []⟩, none⟩
        [("A", "hello".toList)]).faissIndex = none ∧
    (runScanDirectory (fun _ => [1]) ⟨[], none, ⟨[], []⟩, none⟩
        [("A", "hello".toList)]).db.chunks = [] := by
  decide

/-- C2 amended: a completed scan-directory run leaves the Metadata
Store and the Vector Index untouched and persists the chunk list only
to the JSON cache; the store write and the index build happen lazily
inside the first search (via `createFaissIndex`) when no index file
exists, over the same ordered chunk list the scan produced. -/
theorem scanDirectory_defers_persistence
    (embed : List Char → List Int) (s : AppState) (files : List ScanFile)
    (s' : AppState) (hs' : s' = runScanDirectory embed s files) :
    s'.db = s.db ∧ s'.faissIndex = s.faissIndex ∧
    s'.savedIndexData = some s'.indexedChunks ∧
    (s.faissIndex = none →
      (ensureFaissIndex s').faissIndex = some (s'.indexedChunks.map (·.embedding)) ∧
      (ensureFaissIndex s').db = storeChunks s.db s'.indexedChunks) := by
  subst hs'
  refine ⟨rfl, rfl, rfl, fun hnone => ?_⟩
  simp [ensureFaissIndex, runScanDirectory, hnone, createFaissIndexState]

/-- Witness for C2's amended claim at a concrete run. -/
theorem scanDirectory_defers_persistence_witness :
    (ensureFaissIndex (runScanDirectory (fun _ => [1]) ⟨[], none, ⟨[], []⟩, none⟩
        [("A", "hi".toList)])).faissIndex = some [[1]] := by
  have h := scanDirectory_defers_persistence (fun _ => [1]) ⟨[], none, ⟨[], []⟩, none⟩
    [("A", "hi".toList)] _ rfl
  rw [(h.2.2.2 rfl).1]
  decide

/-- C4 fails on the code: the main-process `search` handler performs no
query validation at all — with a non-empty index an empty query is
passed straight to `searchChunks` (an index access), not rejected with
a validation error. -/
theorem searchHandler_accepts_empty_query :
    searchHandler [⟨"a".toList, "A", 0, "paragraph", [1]⟩] []
      = SearchOutcome.invokeSearch [] [⟨"a".toList, "A", 0, "paragraph", [1]⟩] := by
  decide

/-- C4 amended: empty/whitespace-only queries are rejected in the
renderer, which issues no IPC search call for them; the main-process
handler itself never validates the query — its only immediate
rejection is an empty in-memory index, and with a non-empty index it
forwards any query (blank included) to the search pipeline. -/
theorem query_validation_lives_in_renderer
    (query : List Char) (indexedChunks : List EChunk) :
    (jsTrim query = [] → rendererHandleSearch query = none) ∧
    (indexedChunks ≠ [] →
      searchHandler indexedChunks query = .invokeSearch query indexedChunks) ∧
    searchHandler [] query = .errorNoDocs := by
  refine ⟨fun h => by simp [rendererHandleSearch, h], fun h => ?_, rfl⟩
  unfold searchHandler
  rw [if_neg fun hl => h (List.length_eq_zero.1 hl)]

/-- Witness for C4's amended claim at a blank query and a one-chunk
index. -/
theorem query_validation_lives_in_renderer_witness :
    rendererHandleSearch " \t".toList = none ∧
    searchHandler [⟨"a".toList, "A", 0, "paragraph", [1]⟩] " \t".toList
      = .invokeSearch " \t".toList [⟨"a".toList, "A", 0, "paragraph", [1]⟩] :=
  ⟨(query_validation_lives_in_renderer " \t".toList []).1 (by decide),
   (query_validation_lives_in_renderer " \t".toList
      [⟨"a".toList, "A", 0, "paragraph", [1]⟩]).2.1 (by decide)⟩

/-- C5 fails on the code: `generateEmbeddings` never compares the
returned vector count with the input count — a successful exit that
produced zero vectors for one input resolves successfully, the chunk's
embedding simply being left undefined (fileSystem.js:510-513). -/
theorem generateEmbeddings_no_count_check :
    generateEmbeddings [⟨"a".toList, "A", 0, "paragraph"⟩] (.exited 0 [])
      = .ok [⟨⟨"a".toList, "A", 0, "paragraph"⟩, none⟩] := rfl

/-- C5 amended: the embedding step fails with a provider error exactly
when the Python process cannot be spawned or exits with nonzero
status; on a zero exit it always resolves with one entry per input in
input order, the `i`-th entry pairing the `i`-th input chunk with the
`i`-th returned vector when one exists and with nothing (`undefined`)
otherwise — a count mismatch is not detected. -/
theorem generateEmbeddings_amended (chunks : List TChunk) (code : Nat)
    (vectors : List (List Int)) :
    generateEmbeddings chunks .spawnFailure = .error .spawnFailure ∧
    (code ≠ 0 →
      generateEmbeddings chunks (.exited code vectors) = .error (.nonzeroExit code)) ∧
    ∀ out, generateEmbeddings chunks (.exited 0 vectors) = .ok out →
      out.length = chunks.length ∧
      ∀ i (h : i < out.length) (h' : i < chunks.length),
        (out.get ⟨i, h⟩).chunk = chunks.get ⟨i, h'⟩ ∧
        (out.get ⟨i, h⟩).embedding = vectors.get? i := by
  refine ⟨rfl, fun hc => by simp [generateEmbeddings, hc], fun out hout => ?_⟩
  have hout' : out = chunks.enum.map fun ic => EmbChunk.mk ic.2 (vectors.get? ic.1) := by
    simpa [generateEmbeddings] using hout.symm
  subst hout'
  constructor
  · simp
  · intro i h h'
    constructor
    · simp [List.get_eq_getElem, List.getElem_map, List.getElem_enum]
    · simp [List.get_eq_getElem, List.getElem_map, List.getElem_enum]

/-- Witness for C5's amended claim at concrete runs. -/
theorem generateEmbeddings_amended_witness :
    generateEmbeddings [⟨"a".toList, "A", 0, "paragraph"⟩] (.exited 3 [])
      = .error (.nonzeroExit 3) ∧
    ([(⟨⟨"a".toList, "A", 0, "paragraph"⟩, some [7]⟩ : EmbChunk)].get
        ⟨0, by decide⟩).embedding = [[7]].get? 0 :=
  ⟨(generateEmbeddings_amended [⟨"a".toList, "A", 0, "paragraph"⟩] 3 []).2.1 (by decide),
   (((generateEmbeddings_amended [⟨"a".toList, "A", 0, "paragraph"⟩] 3 [[7]]).2.2
      [⟨⟨"a".toList, "A", 0, "paragraph"⟩, some [7]⟩] rfl).2 0 (by decide) (by decide)).2⟩

/-- C6 fails on the code for duplicated handles: the SQL `IN` query
returns each matching row once, so a handle listed twice contributes
its rows once, not twice — the output does not match the input handle
order "exactly (duplicates preserved)". -/
theorem getChunks_duplicate_handles_collapse :
    getChunksByEmbeddingIds ⟨["A"], [⟨0, "a".toList, 0, "paragraph", 0⟩]⟩ [0, 0]
      = [⟨"a".toList, "A", 0, "paragraph", 0⟩] ∧
    getChunksByHandlesSpec ⟨["A"], [⟨0, "a".toList, 0, "paragraph", 0⟩]⟩ [0, 0]
      = [⟨"a".toList, "A", 0, "paragraph", 0⟩, ⟨"a".toList, "A", 0, "paragraph", 0⟩] ∧
    getChunksByEmbeddingIds ⟨["A"], [⟨0, "a".toList, 0, "paragraph", 0⟩]⟩ [0, 0]
      ≠ getChunksByHandlesSpec ⟨["A"], [⟨0, "a".toList, 0, "paragraph", 0⟩]⟩ [0, 0] := by
  decide

/-- C6 amended: for every duplicate-free handle sequence,
`getChunksByEmbeddingIds` returns exactly the matching chunks grouped
handle by handle in the order the handles were given (rows sharing a
handle staying in storage order, ties preserved) — never plain storage
order — and a handle with no matching row contributes an empty group
rather than an error; duplicated input handles contribute their rows
only once. -/
theorem getChunksByEmbeddingIds_order_preserving (db : DB)
    (embeddingIds : List Nat) (hnodup : embeddingIds.Nodup) :
    getChunksByEmbeddingIds db embeddingIds = getChunksByHandlesSpec db embeddingIds := by
  unfold getChunksByEmbeddingIds getChunksByHandlesSpec
  by_cases he : embeddingIds = []
  · subst he; simp
  · rw [if_neg he]
    have h1 : (db.chunks.filter (fun r => decide (r.embeddingId ∈ embeddingIds))).filterMap
          (joinDoc db)
        = (db.chunks.filterMap (joinDoc db)).filter
            (fun o => decide (o.embeddingId ∈ embeddingIds)) :=
      filterMap_joinDoc_filter db (fun x => decide (x ∈ embeddingIds)) db.chunks
    have h2 := insertionSort_indexOf_flatMap (fun o : ChunkOut => o.embeddingId)
      embeddingIds hnodup embeddingIds [] (db.chunks.filterMap (joinDoc db)) rfl
    have h3 := flatMap_congr_fun embeddingIds
      (fun h => (db.chunks.filter (fun r => decide (r.embeddingId = h))).filterMap (joinDoc db))
      (fun h => (db.chunks.filterMap (joinDoc db)).filter (fun o => decide (o.embeddingId = h)))
      (fun h => filterMap_joinDoc_filter db (fun x => decide (x = h)) db.chunks)
    exact (congrArg
      (List.insertionSort fun a b =>
        embeddingIds.indexOf a.embeddingId ≤ embeddingIds.indexOf b.embeddingId) h1).trans
      (h2.trans h3.symm)

/-- Witness for C6's amended claim: handles `[3,1,2]` against rows
stored in the order 1, 2, 3 come back in handle order, not storage
order. -/
theorem getChunksByEmbeddingIds_order_preserving_witness :
    getChunksByEmbeddingIds
        ⟨["A"], [⟨0, "x".toList, 0, "paragraph", 1⟩,
                 ⟨0, "y".toList, 0, "paragraph", 2⟩,
                 ⟨0, "z".toList, 0, "paragraph", 3⟩]⟩ [3, 1, 2]
      = [⟨"z".toList, "A", 0, "paragraph", 3⟩,
         ⟨"x".toList, "A", 0, "paragraph", 1⟩,
         ⟨"y".toList, "A", 0, "paragraph", 2⟩] := by
  rw [getChunksByEmbeddingIds_order_preserving _ _ (by decide)]
  decide

/-- C7: the vector-index search returns exactly
`min(requestedK, totalVectors)` results, as (0-based row position,
score) pairs in non-increasing score order, every position being a
valid row of the index. -/
theorem faissFlatIPSearch_topk (index : List (List Int)) (query : List Int)
    (requestedK : Nat) :
    (faissFlatIPSearch index query requestedK).length = min requestedK index.length ∧
    List.Sorted (fun a b : Nat × Int => b.2 ≤ a.2)
      (faissFlatIPSearch index query requestedK) ∧
    ∀ p ∈ faissFlatIPSearch index query requestedK, p.1 < index.length := by
  haveI htot : IsTotal (Nat × Int) (fun a b => b.2 ≤ a.2) :=
    ⟨fun a b => le_total b.2 a.2⟩
  haveI htrans : IsTrans (Nat × Int) (fun a b => b.2 ≤ a.2) :=
    ⟨fun _ _ _ hab hbc => le_trans hbc hab⟩
  have hperm := List.perm_insertionSort (fun a b : Nat × Int => b.2 ≤ a.2)
    (index.enum.map fun iv => (iv.1, dotIP query iv.2))
  have hlen : (List.insertionSort (fun a b : Nat × Int => b.2 ≤ a.2)
      (index.enum.map fun iv => (iv.1, dotIP query iv.2))).length = index.length := by
    rw [hperm.length_eq]
    simp [List.enum_length]
  refine ⟨?_, ?_, ?_⟩
  · unfold faissFlatIPSearch
    rw [List.length_take, hlen]
    omega
  · exact List.Pairwise.sublist (List.take_sublist _ _)
      (List.sorted_insertionSort (fun a b : Nat × Int => b.2 ≤ a.2) _)
  · intro p hp
    have hp' := hperm.mem_iff.1 (List.mem_of_mem_take hp)
    rcases List.mem_map.1 hp' with ⟨iv, hiv, hpiv⟩
    rw [← hpiv]
    exact enum_fst_lt index iv hiv

/-- Witness for C7 at a concrete two-vector index. -/
theorem faissFlatIPSearch_topk_witness :
    (faissFlatIPSearch [[1], [2]] [3] 5).length = min 5 2 ∧ (1 : Nat) < [[1], [2]].length :=
  ⟨(faissFlatIPSearch_topk [[1], [2]] [3] 5).1,
   (faissFlatIPSearch_topk [[1], [2]] [3] 5).2.2 (1, 6) (by decide)⟩

/-- C3 fails on the code: for `"a\n\nb"` with `maxChunkSize = 1` the
paragraphs land in different chunks, the separator is dropped
entirely, and the chunks contain no re-inserted separator to ignore —
their concatenation is `"ab"`, not the original text. -/
theorem chunk_coverage_counterexample :
    chunkText "a\n\nb".toList 1 = ["a".toList, "b".toList] ∧
    (chunkText "a\n\nb".toList 1).flatten = "ab".toList ∧
    "ab".toList ≠ "a\n\nb".toList := by
  decide

/-- C3 amended: `document` granularity always yields exactly one chunk
equal to the whole input at offset 0, regardless of `maxSize`;
paragraph-granularity concatenation reproduces the original text
exactly when the text fits in one chunk (`length ≤ maxSize`) and every
separator occurrence is the canonical `"\n\n"` between non-empty
paragraphs — in general separators at chunk boundaries are dropped and
non-canonical separators are rewritten, as the counterexample shows. -/
theorem chunk_coverage_amended (text : List Char) (fp : String)
    (maxChunkSize : Nat)
    (hne : ∀ p ∈ splitParagraphs text, p ≠ [])
    (hjoin : joinParagraphs (splitParagraphs text) = text)
    (hlen : text.length ≤ maxChunkSize) :
    (chunkText text maxChunkSize).flatten = text ∧
    ∀ maxSize, extractTextChunks text fp maxSize "document"
      = [⟨text, fp, 0, "document"⟩] := by
  refine ⟨?_, fun maxSize => rfl⟩
  have hone : chunkText text maxChunkSize = [text] := by
    unfold chunkText chunkTextPass1
    cases hps : splitParagraphs text with
    | nil =>
      exfalso
      have : joinParagraphs ([] : List (List Char)) = text := by rw [← hps]; exact hjoin
      simp [joinParagraphs] at this
      subst this
      simp [splitParagraphs, splitParasAux] at hps
    | cons p rest =>
      have hp : p ≠ [] := by
        apply hne
        rw [hps]
        exact List.mem_cons_self p rest
      have hstep1 : paraStep maxChunkSize ([], []) p = ([], p) := by
        unfold paraStep
        rw [if_neg (by simp), if_pos rfl]
        simp
      have htext : joinWith p rest = text := by
        have : joinParagraphs (p :: rest) = joinWith p rest := rfl
        rw [← this, ← hps]
        exact hjoin
      have hfold := paraFold_no_overflow maxChunkSize rest [] p hp
        (by rw [htext]; exact hlen)
      simp only [List.foldl_cons, hstep1, hfold, htext]
      have htne : text ≠ [] := by
        intro h0
        rw [h0] at htext
        unfold joinWith at htext
        exact hp (List.append_eq_nil.1 htext).1
      rw [if_neg htne]
      simp only [List.nil_append, List.flatMap_cons, List.flatMap_nil]
      rw [if_pos hlen]
      simp
  rw [hone]
  simp

/-- Witness for C3's amended claim at a canonical two-paragraph text. -/
theorem chunk_coverage_amended_witness :
    (chunkText "a\n\nb".toList 1000).flatten = "a\n\nb".toList ∧
    extractTextChunks "a\n\nb".toList "f" 1 "document"
      = [⟨"a\n\nb".toList, "f", 0, "document"⟩] := by
  have h := chunk_coverage_amended "a\n\nb".toList "f" 1000
    (by decide) (by decide) (by decide)
  exact ⟨h.1, h.2 1⟩

/-- C10: every chunk returned by `chunkText` has non-empty text (every
flush is guarded by a non-emptiness check); the empty string splits
into a single empty paragraph and yields no chunks, and more generally
any input all of whose paragraph-split pieces are empty (i.e. input
consisting only of blank-line separator material) yields no chunks. -/
theorem chunkText_chunks_nonempty (text : List Char) (maxChunkSize : Nat) :
    (∀ c ∈ chunkText text maxChunkSize, 1 ≤ c.length) ∧
    chunkText [] maxChunkSize = [] ∧
    ((∀ p ∈ splitParagraphs text, p = []) → chunkText text maxChunkSize = []) := by
  refine ⟨fun c hc => ?_, ?_, fun hall => ?_⟩
  · have hne := chunkText_ne_nil text maxChunkSize c hc
    exact List.length_pos.2 hne
  · simp [chunkText, chunkTextPass1, splitParagraphs, splitParasAux, paraStep]
  · unfold chunkText chunkTextPass1
    rw [paraFold_all_empty maxChunkSize (splitParagraphs text) hall]
    simp

/-- Witness for C10 at separator-only and one-word inputs. -/
theorem chunkText_chunks_nonempty_witness :
    chunkText "\n \n".toList 7 = [] ∧ 1 ≤ ("x".toList).length :=
  ⟨(chunkText_chunks_nonempty "\n \n".toList 7).2.2 (by decide),
   (chunkText_chunks_nonempty "x".toList 5).1 "x".toList (by decide)⟩

/-- C8: at `paragraph` or `page` granularity, each chunk's `startPos`
is the sum of the lengths of all prior chunks of the same document, so
offsets are strictly increasing in emission order and each chunk's
offset plus its length is at most (in fact equal to) the next chunk's
offset. -/
theorem extractTextChunks_offsets (content : List Char) (fp : String)
    (chunkSize : Nat) (g : String) (hg : g = "paragraph" ∨ g = "page") :
    ∀ i (h : i < (extractTextChunks content fp chunkSize g).length),
      ((extractTextChunks content fp chunkSize g).get ⟨i, h⟩).startPos
        = (((extractTextChunks content fp chunkSize g).take i).map
            (fun c => c.text.length)).sum ∧
      ∀ (h' : i + 1 < (extractTextChunks content fp chunkSize g).length),
        ((extractTextChunks content fp chunkSize g).get ⟨i, h⟩).startPos
            + ((extractTextChunks content fp chunkSize g).get ⟨i, h⟩).text.length
          ≤ ((extractTextChunks content fp chunkSize g).get ⟨i + 1, h'⟩).startPos ∧
        ((extractTextChunks content fp chunkSize g).get ⟨i, h⟩).startPos
          < ((extractTextChunks content fp chunkSize g).get ⟨i + 1, h'⟩).startPos := by
  have hgd : g ≠ "document" := by
    rcases hg with h | h <;> subst h <;> decide
  have hL : extractTextChunks content fp chunkSize g
      = attachOffsets fp g 0 (chunkText content chunkSize) := by
    unfold extractTextChunks
    rw [if_neg hgd]
  have hlen : (extractTextChunks content fp chunkSize g).length
      = (chunkText content chunkSize).length := by
    rw [hL, attachOffsets_length]
  have hget : ∀ j (hj : j < (chunkText content chunkSize).length)
      (hj' : j < (extractTextChunks content fp chunkSize g).length),
      (extractTextChunks content fp chunkSize g).get ⟨j, hj'⟩
        = ⟨(chunkText content chunkSize).get ⟨j, hj⟩, fp,
           (((chunkText content chunkSize).take j).map List.length).sum, g⟩ := by
    intro j hj hj'
    have h1 := attachOffsets_get? fp g (chunkText content chunkSize) 0 j
    rw [← hL, List.get?_eq_get hj', List.get?_eq_get hj] at h1
    simpa using h1
  have hmap : (extractTextChunks content fp chunkSize g).map (fun c => c.text)
      = chunkText content chunkSize := by
    rw [hL, attachOffsets_map_text]
  intro i h
  have hits : i < (chunkText content chunkSize).length := by omega
  have htake : ((extractTextChunks content fp chunkSize g).take i).map
      (fun c => c.text.length)
      = (((chunkText content chunkSize).take i).map List.length) := by
    have h1 : ((extractTextChunks content fp chunkSize g).take i).map (fun c => c.text)
        = (chunkText content chunkSize).take i := by
      rw [List.map_take, hmap]
    calc ((extractTextChunks content fp chunkSize g).take i).map (fun c => c.text.length)
        = (((extractTextChunks content fp chunkSize g).take i).map
            (fun c => c.text)).map List.length := by
          rw [List.map_map]; rfl
      _ = (((chunkText content chunkSize).take i).map List.length) := by rw [h1]
  refine ⟨?_, fun h' => ?_⟩
  · rw [hget i hits h, htake]
  · have hits1 : i + 1 < (chunkText content chunkSize).length := by omega
    have hsum : (((chunkText content chunkSize).take (i + 1)).map List.length).sum
        = (((chunkText content chunkSize).take i).map List.length).sum
          + ((chunkText content chunkSize).get ⟨i, hits⟩).length := by
      rw [List.map_take, List.map_take, List.sum_take_succ _ i (by simpa using hits)]
      congr 1
      simp
    have hpos : 0 < ((chunkText content chunkSize).get ⟨i, hits⟩).length :=
      List.length_pos.2
        (chunkText_ne_nil content chunkSize _ (List.get_mem _ i hits))
    rw [hget i hits h, hget (i + 1) hits1 h']
    constructor
    · simp only
      omega
    · simp only
      omega

/-- Witness for C8 at a two-chunk document. -/
theorem extractTextChunks_offsets_witness :
    ((extractTextChunks "aa\n\nbb".toList "f" 3 "paragraph").get ⟨0, by decide⟩).startPos
        + ((extractTextChunks "aa\n\nbb".toList "f" 3 "paragraph").get ⟨0, by decide⟩).text.length
      ≤ ((extractTextChunks "aa\n\nbb".toList "f" 3 "paragraph").get ⟨1, by decide⟩).startPos ∧
    ((extractTextChunks "aa\n\nbb".toList "f" 3 "paragraph").get ⟨0, by decide⟩).startPos
      < ((extractTextChunks "aa\n\nbb".toList "f" 3 "paragraph").get ⟨1, by decide⟩).startPos :=
  (extractTextChunks_offsets "aa\n\nbb".toList "f" 3 "paragraph" (Or.inl rfl) 0
    (by decide)).2 (by decide)

end HereIAm
